import Mathlib

/-!
# Verification of the message-splitter segmentation engine

Shallow embedding of the segmentation plugin (`src/main.py`): the
scope-aware text segmenter (`_process_text_smart`), the legacy splitter
(`_process_text_simple`), the chain segmenter (`split_chain_smart`), the
segment limiter and the delivery loop of `on_decorating_result`.

Modelling conventions:
* Text is `List Char`; a message component is either plain text or a
  media component identified by its lowercased type name.
* The delimiter pattern is modelled as a character class `[chars]+`
  (the shape built by the plugin for simple mode and the shape of the
  default regex): an anchored match at a position succeeds exactly when
  the character there is a delimiter character, and it consumes the
  maximal run of delimiter characters.
* The mutable `segments` / `buffer` lists that the Python code threads
  through its helpers become explicit arguments and results.
-/

namespace Splitter

/-- A message component: `Plain` text, or a rich-media component
identified by its lowercased type name (`type(component).__name__.lower()`). -/
inductive Component where
  | plain (text : List Char)
  | media (ctype : List Char)
deriving DecidableEq

/-- `pair_map` of the plugin: opener character to its closer.
The straight double and single quote map to themselves. -/
def pairMap (c : Char) : Option Char :=
  if c = '“' then some '”'
  else if c = '《' then some '》'
  else if c = '（' then some '）'
  else if c = '(' then some ')'
  else if c = '[' then some ']'
  else if c = '\x7b' then some '\x7d'
  else if c = '\"' then some '\"'
  else if c = '\'' then some '\''
  else none

/-- `char in self.pair_map`. -/
def isOpener (c : Char) : Bool := (pairMap c).isSome

/-- The ambiguous quote set `['"', "'"]` of the scanner. -/
def isAmbiguous (c : Char) : Bool := c == '\"' || c == '\''

/-- State of the scope-aware scan of `_process_text_smart`:
the scope stack, the pending chunk, and the shared output
buffer / segment lists the Python code mutates. -/
structure SState where
  stack : List Char
  chunk : List Char
  buffer : List Component
  segments : List (List Component)
deriving DecidableEq

/-- One iteration of the `while i < n` loop of `_process_text_smart`,
given the current character `c` and the characters `cs` after it.
Returns the new state and the input remaining after the iteration. -/
def smartStep (delims : Char → Bool) (st : SState) (c : Char) (cs : List Char) :
    SState × List Char :=
  if isAmbiguous c then
    match st.stack with
    | top :: rest =>
      if top = c then ({ st with stack := rest, chunk := st.chunk ++ [c] }, cs)
      else ({ st with stack := c :: top :: rest, chunk := st.chunk ++ [c] }, cs)
    | [] => ({ st with stack := [c], chunk := st.chunk ++ [c] }, cs)
  else
    match st.stack with
    | top :: rest =>
      if pairMap top = some c then
        ({ st with stack := rest, chunk := st.chunk ++ [c] }, cs)
      else if isOpener c then
        ({ st with stack := c :: top :: rest, chunk := st.chunk ++ [c] }, cs)
      else ({ st with chunk := st.chunk ++ [c] }, cs)
    | [] =>
      if isOpener c then ({ st with stack := [c], chunk := st.chunk ++ [c] }, cs)
      else if delims c then
        ({ stack := [], chunk := [], buffer := [],
           segments := st.segments ++
             [st.buffer ++ [Component.plain (st.chunk ++ c :: cs.takeWhile delims)]] },
         cs.dropWhile delims)
      else ({ st with chunk := st.chunk ++ [c] }, cs)

/-- The stack component of one scanner iteration, as a pure function of
the stack and the character: the ambiguous identity toggle first, then
pop on the registered closer of the top, push on a registered opener,
otherwise leave the stack alone — exactly the stack updates of
`smartStep`. -/
def stackStep (stack : List Char) (c : Char) : List Char :=
  if isAmbiguous c then
    match stack with
    | top :: rest => if top = c then rest else c :: top :: rest
    | [] => [c]
  else
    match stack with
    | top :: rest =>
      if pairMap top = some c then rest
      else if isOpener c then c :: top :: rest
      else top :: rest
    | [] => if isOpener c then [c] else []

/-- Starting from `stack`, the scope stack is non-empty when the scanner
reaches each character of the span: the condition under which the whole
span is scope content. -/
def stackNeverEmpty (stack : List Char) : List Char → Bool
  | [] => true
  | c :: cs => !stack.isEmpty && stackNeverEmpty (stackStep stack c) cs

/-- Fuel-indexed scan loop of `_process_text_smart`; one unit of fuel
per loop iteration, each of which consumes at least one character, so
`text.length` fuel always suffices. -/
def smartGoF (delims : Char → Bool) : Nat → SState → List Char → SState
  | _, st, [] => st
  | 0, st, _ :: _ => st
  | fuel + 1, st, c :: cs =>
    smartGoF delims fuel (smartStep delims st c cs).1 (smartStep delims st c cs).2

/-- The scan loop of `_process_text_smart` (fuel instantiated). -/
def smartGo (delims : Char → Bool) (st : SState) (text : List Char) : SState :=
  smartGoF delims text.length st text

/-- `_process_text_smart`: scope-aware scan of one text unit, threading the
shared `segments` and `buffer` lists; a non-empty final chunk is flushed
into the buffer (not emitted as a segment). -/
def processTextSmart (delims : Char → Bool) (text : List Char)
    (segments : List (List Component)) (buffer : List Component) :
    List (List Component) × List Component :=
  let st := smartGo delims { stack := [], chunk := [], buffer := buffer, segments := segments } text
  if st.chunk.isEmpty then (st.segments, st.buffer)
  else (st.segments, st.buffer ++ [Component.plain st.chunk])

/-- The epilogue of `_process_text_smart`: flush a non-empty final chunk
into the buffer.  `processTextSmart` is definitionally
`finishSmart ∘ smartGo` from the all-empty scan state. -/
def finishSmart (st : SState) : List (List Component) × List Component :=
  if st.chunk.isEmpty then (st.segments, st.buffer)
  else (st.segments, st.buffer ++ [Component.plain st.chunk])

/-- The first character of the text, when there is one, is a delimiter
character. -/
def headDelim (delims : Char → Bool) : List Char → Prop
  | [] => True
  | c :: _ => delims c = true

/-- Fuel-indexed tokenizer for the legacy mode: `re.split(f"({pattern})", text)`
with pattern `[chars]+` yields the maximal runs of same-class characters
(the empty pieces `re.split` can produce are skipped by the loop anyway). -/
def toRunsF (delims : Char → Bool) : Nat → List Char → List (List Char)
  | _, [] => []
  | 0, _ :: _ => []
  | fuel + 1, c :: cs =>
    (c :: cs.takeWhile (fun x => delims x == delims c)) ::
      toRunsF delims fuel (cs.dropWhile (fun x => delims x == delims c))

/-- The run decomposition of a text (fuel instantiated). -/
def toRuns (delims : Char → Bool) (text : List Char) : List (List Char) :=
  toRunsF delims text.length text

/-- The `for part in parts` loop of `_process_text_simple`:
`temp` is `temp_text`; a part that fully matches the pattern (a run of
delimiter characters) is appended to `temp` and flushed as a segment,
any other part first flushes a pending `temp` into the buffer. -/
def simpleGo (delims : Char → Bool) :
    List (List Char) → List Char → List (List Component) → List Component →
    List (List Component) × List Component
  | [], temp, segments, buffer =>
    if temp.isEmpty then (segments, buffer)
    else (segments, buffer ++ [Component.plain temp])
  | part :: rest, temp, segments, buffer =>
    if part.isEmpty then simpleGo delims rest temp segments buffer
    else if part.all delims then
      simpleGo delims rest []
        (segments ++ [buffer ++ [Component.plain (temp ++ part)]]) []
    else if temp.isEmpty then simpleGo delims rest part segments buffer
    else simpleGo delims rest part segments (buffer ++ [Component.plain temp])

/-- `_process_text_simple`: legacy non-scope-aware split of one text unit. -/
def processTextSimple (delims : Char → Bool) (text : List Char)
    (segments : List (List Component)) (buffer : List Component) :
    List (List Component) × List Component :=
  simpleGo delims (toRuns delims text) [] segments buffer

/-- Attachment strategies of the configuration
(`'单独'`, `'跟随上一段文字'`, `'跟随下段'`, `'嵌入'`). -/
inductive Strategy where
  | standalone
  | followPrevText
  | followNext
  | embed
deriving DecidableEq

/-- The per-kind strategy table built from the configuration. -/
structure Strategies where
  image_strategy : Strategy
  at_strategy : Strategy
  face_strategy : Strategy
  reply_strategy : Strategy
  other_media_strategy : Strategy
deriving DecidableEq

/-- `startsWithList needle hay`: `needle` is an initial run of `hay`. -/
def startsWithList : List Char → List Char → Bool
  | [], _ => true
  | _ :: _, [] => false
  | a :: as, b :: bs => a == b && startsWithList as bs

/-- `containsSub needle hay`: Python's `needle in hay` substring test. -/
def containsSub (needle : List Char) : List Char → Bool
  | [] => startsWithList needle []
  | c :: cs => startsWithList needle (c :: cs) || containsSub needle cs

/-- Strategy dispatch on the lowercased component type name
(the `if 'image' in c_type: ... elif ...` chain). -/
def resolveStrategy (s : Strategies) (ctype : List Char) : Strategy :=
  if containsSub "image".toList ctype then s.image_strategy
  else if containsSub "at".toList ctype then s.at_strategy
  else if containsSub "face".toList ctype then s.face_strategy
  else if containsSub "reply".toList ctype then s.reply_strategy
  else s.other_media_strategy

/-- `segments[-1].append(component)`: append one component at the end of
the last segment of a non-empty segment list. -/
def appendToLast : List (List Component) → Component → List (List Component)
  | [], _ => []
  | [s], comp => [s ++ [comp]]
  | s :: s2 :: rest, comp => s :: appendToLast (s2 :: rest) comp

/-- The body of the `for component in chain` loop of `split_chain_smart`,
acting on the `(segments, current_chain_buffer)` pair. -/
def chainStep (delims : Char → Bool) (smart : Bool) (strategies : Strategies)
    (acc : List (List Component) × List Component) (comp : Component) :
    List (List Component) × List Component :=
  match comp with
  | Component.plain t =>
    if t.isEmpty then acc
    else if smart then processTextSmart delims t acc.1 acc.2
    else processTextSimple delims t acc.1 acc.2
  | Component.media ctype =>
    match resolveStrategy strategies ctype with
    | Strategy.standalone =>
      ((if acc.2.isEmpty then acc.1 else acc.1 ++ [acc.2]) ++ [[comp]], [])
    | Strategy.followPrevText =>
      if !acc.2.isEmpty then (acc.1, acc.2 ++ [comp])
      else if !acc.1.isEmpty then (appendToLast acc.1 comp, acc.2)
      else (acc.1, acc.2 ++ [comp])
    | _ => (acc.1, acc.2 ++ [comp])

/-- `split_chain_smart`: fold the chain through `chainStep`, flush the
remaining buffer, and drop empty segments. -/
def splitChainSmart (delims : Char → Bool) (smart : Bool) (strategies : Strategies)
    (chain : List Component) : List (List Component) :=
  let acc := chain.foldl (chainStep delims smart strategies) ([], [])
  let segs := if acc.2.isEmpty then acc.1 else acc.1 ++ [acc.2]
  segs.filter (fun s => !s.isEmpty)

/-- Invariant of the chain fold used for the attach-to-previous claim:
the component `u` is the leading content of the segment list / buffer
pair — either no segment has been emitted yet and the buffer starts with
`u`, or the first emitted segment starts with `u`. -/
def goodAcc (u : Component) (acc : List (List Component) × List Component) : Prop :=
  (acc.1 = [] ∧ ∃ m, acc.2 = u :: m) ∨ (∃ m rest, acc.1 = (u :: m) :: rest)

/-- The max-segment merge of `on_decorating_result` (step 5): when the
segment count exceeds a positive `max_segs`, keep the first `max_segs - 1`
segments and merge the rest, in order, into one final segment. -/
def limitSegments (maxSegs : Int) (segments : List (List Component)) :
    List (List Component) :=
  if (segments.length : Int) > maxSegs ∧ maxSegs > 0 then
    segments.take (maxSegs.toNat - 1) ++ [(segments.drop (maxSegs.toNat - 1)).flatten]
  else segments

/-- Text content of one component (`c.text` for `Plain`, nothing otherwise). -/
def compText : Component → List Char
  | Component.plain t => t
  | Component.media _ => []

/-- `"".join(c.text for c in chain if isinstance(c, Plain))`. -/
def segText (seg : List Component) : List Char :=
  (seg.map compText).flatten

/-- Concatenated text content of a segment list, in order. -/
def segsText (segs : List (List Component)) : List Char :=
  (segs.map segText).flatten

/-- `any(not isinstance(c, Plain) for c in segment_chain)`. -/
def hasNonPlain (seg : List Component) : Bool :=
  seg.any fun c => match c with
    | Component.plain _ => false
    | Component.media _ => true

/-- A segment passes the loop's skip checks: it is non-empty and has either
non-empty text content or a non-`Plain` component. -/
def deliverable (seg : List Component) : Bool :=
  !seg.isEmpty && (!(segText seg).isEmpty || hasNonPlain seg)

/-- Observable events of the delivery loop: a successful send of segment
`i`, a caught send failure at segment `i`, or a computed-and-awaited
delay after segment `i`. -/
inductive Ev where
  | sent (i : Nat)
  | failed (i : Nat)
  | slept (i : Nat)
deriving DecidableEq

def Ev.isSleep : Ev → Bool
  | Ev.slept _ => true
  | _ => false

/-- The `for i, segment_chain in enumerate(segments)` loop of
`on_decorating_result` (step 6), with `n = len(segments)` and the send
primitive modelled by its per-index success `send i`.  The delay
(`asyncio.sleep` after `calculate_delay`) sits inside the same `try`
block as the send, after it, so it runs only when the send succeeded
and `i < n - 1`; a raised send error is caught and the loop continues. -/
def sendLoopAux (send : Nat → Bool) (n : Nat) : Nat → List (List Component) → List Ev
  | _, [] => []
  | i, seg :: rest =>
    (if deliverable seg then
      (if send i then Ev.sent i :: (if i < n - 1 then [Ev.slept i] else []) else [Ev.failed i])
     else []) ++ sendLoopAux send n (i + 1) rest

/-- The delivery loop over a final segment list. -/
def sendLoop (send : Nat → Bool) (segs : List (List Component)) : List Ev :=
  sendLoopAux send segs.length 0 segs

/-- The configuration slice of `on_decorating_result` that the model
needs: the delimiter class, the smart-mode toggle, the strategy table,
`max_segments`, and the cleanup rule (`clean_regex`): `none` models the
empty (falsy) pattern, `some f` a configured pattern acting on text as `f`. -/
structure Config where
  delims : Char → Bool
  smart : Bool
  strategies : Strategies
  maxSegs : Int
  clean : Option (List Char → List Char)

/-- `re.sub(clean_pattern, "", comp.text)` applied to every `Plain` of a segment. -/
def applyClean (f : List Char → List Char) (seg : List Component) : List Component :=
  seg.map fun c => match c with
    | Component.plain t => Component.plain (f t)
    | m => m

/-- `on_decorating_result` from step 4 on (the guards of steps 1-3 passed):
split, limit, early-return when at most one segment and no cleanup pattern
(leaving the chain untouched), otherwise clean, run the delivery loop and
clear the original chain.  Returns the delivery events and the final
state of `result.chain`. -/
def onDecoratingResult (cfg : Config) (send : Nat → Bool) (chain : List Component) :
    List Ev × List Component :=
  let segments := limitSegments cfg.maxSegs
    (splitChainSmart cfg.delims cfg.smart cfg.strategies chain)
  if segments.length ≤ 1 ∧ cfg.clean.isNone then ([], chain)
  else
    let cleaned := match cfg.clean with
      | some f => segments.map (applyClean f)
      | none => segments
    (sendLoop send cleaned, [])

/-! ## Helper lemmas -/

theorem dropWhile_length_le (p : Char → Bool) :
    ∀ l : List Char, (l.dropWhile p).length ≤ l.length := by
  intro l
  induction l with
  | nil => simp [List.dropWhile]
  | cons c cs ih =>
    by_cases h : p c = true
    · simp only [List.dropWhile, h]
      exact Nat.le_succ_of_le ih
    · simp [List.dropWhile, h]

theorem smartStep_snd_le (delims : Char → Bool) (st : SState) (c : Char) (cs : List Char) :
    (smartStep delims st c cs).2.length ≤ cs.length := by
  unfold smartStep
  repeat' split
  all_goals first
    | exact le_rfl
    | exact dropWhile_length_le delims cs

theorem smartGoF_irrel (delims : Char → Bool) :
    ∀ f1 f2 : Nat, ∀ st : SState, ∀ text : List Char,
      text.length ≤ f1 → text.length ≤ f2 →
      smartGoF delims f1 st text = smartGoF delims f2 st text := by
  intro f1
  induction f1 with
  | zero =>
    intro f2 st text h1 _
    have : text = [] := List.eq_nil_of_length_eq_zero (Nat.le_zero.mp h1)
    subst this
    cases f2 <;> rfl
  | succ f1 ih =>
    intro f2 st text h1 h2
    cases text with
    | nil => cases f2 <;> rfl
    | cons c cs =>
      cases f2 with
      | zero => exact absurd h2 (by simp)
      | succ f2 =>
        simp only [smartGoF]
        have hle := smartStep_snd_le delims st c cs
        have hcs1 : cs.length ≤ f1 := by simpa using h1
        have hcs2 : cs.length ≤ f2 := by simpa using h2
        exact ih f2 _ _ (le_trans hle hcs1) (le_trans hle hcs2)

theorem smartGo_nil (delims : Char → Bool) (st : SState) : smartGo delims st [] = st := rfl

theorem smartGo_cons (delims : Char → Bool) (st : SState) (c : Char) (cs : List Char) :
    smartGo delims st (c :: cs) =
      smartGo delims (smartStep delims st c cs).1 (smartStep delims st c cs).2 := by
  unfold smartGo
  simp only [List.length_cons, smartGoF]
  exact smartGoF_irrel delims cs.length _ _ _ (smartStep_snd_le delims st c cs) le_rfl

theorem toRunsF_irrel (delims : Char → Bool) :
    ∀ f1 f2 : Nat, ∀ text : List Char,
      text.length ≤ f1 → text.length ≤ f2 →
      toRunsF delims f1 text = toRunsF delims f2 text := by
  intro f1
  induction f1 with
  | zero =>
    intro f2 text h1 _
    have : text = [] := List.eq_nil_of_length_eq_zero (Nat.le_zero.mp h1)
    subst this
    cases f2 <;> rfl
  | succ f1 ih =>
    intro f2 text h1 h2
    cases text with
    | nil => cases f2 <;> rfl
    | cons c cs =>
      cases f2 with
      | zero => exact absurd h2 (by simp)
      | succ f2 =>
        simp only [toRunsF, List.cons.injEq, true_and]
        have hle := dropWhile_length_le (fun x => delims x == delims c) cs
        have hcs1 : cs.length ≤ f1 := by simpa using h1
        have hcs2 : cs.length ≤ f2 := by simpa using h2
        exact ih f2 _ (le_trans hle hcs1) (le_trans hle hcs2)

theorem toRuns_nil (delims : Char → Bool) : toRuns delims [] = [] := rfl

theorem toRuns_cons (delims : Char → Bool) (c : Char) (cs : List Char) :
    toRuns delims (c :: cs) =
      (c :: cs.takeWhile (fun x => delims x == delims c)) ::
        toRuns delims (cs.dropWhile (fun x => delims x == delims c)) := by
  unfold toRuns
  simp only [List.length_cons, toRunsF, List.cons.injEq, true_and]
  exact toRunsF_irrel delims cs.length _ _
    (dropWhile_length_le (fun x => delims x == delims c) cs) le_rfl

theorem segText_append (a b : List Component) :
    segText (a ++ b) = segText a ++ segText b := by
  simp [segText]

theorem segsText_append (a b : List (List Component)) :
    segsText (a ++ b) = segsText a ++ segsText b := by
  simp [segsText]

theorem segsText_single (s : List Component) : segsText [s] = segText s := by
  simp [segsText]

theorem smartStep_content (delims : Char → Bool) (st : SState) (c : Char) (cs : List Char) :
    segsText (smartStep delims st c cs).1.segments ++
        (segText (smartStep delims st c cs).1.buffer ++
          ((smartStep delims st c cs).1.chunk ++ (smartStep delims st c cs).2)) =
      segsText st.segments ++ (segText st.buffer ++ (st.chunk ++ c :: cs)) := by
  unfold smartStep
  repeat' split
  all_goals
    simp [segsText_append, segsText_single, segText_append, segText, compText,
      List.takeWhile_append_dropWhile]

theorem smartGo_content_aux (delims : Char → Bool) :
    ∀ fuel : Nat, ∀ text : List Char, text.length ≤ fuel → ∀ st : SState,
      segsText (smartGo delims st text).segments ++
          (segText (smartGo delims st text).buffer ++ (smartGo delims st text).chunk) =
        segsText st.segments ++ (segText st.buffer ++ (st.chunk ++ text)) := by
  intro fuel
  induction fuel with
  | zero =>
    intro text h st
    have : text = [] := List.eq_nil_of_length_eq_zero (Nat.le_zero.mp h)
    subst this
    simp [smartGo_nil]
  | succ f ih =>
    intro text h st
    cases text with
    | nil => simp [smartGo_nil]
    | cons c cs =>
      rw [smartGo_cons]
      have hle : (smartStep delims st c cs).2.length ≤ f :=
        le_trans (smartStep_snd_le delims st c cs) (by simpa using h)
      rw [ih _ hle _]
      have h2 := smartStep_content delims st c cs
      simp only [List.append_assoc] at h2 ⊢
      exact h2

/-- Total content of one scan state, segments first, then buffer, then chunk. -/
theorem smartGo_content (delims : Char → Bool) (text : List Char) (st : SState) :
    segsText (smartGo delims st text).segments ++
        (segText (smartGo delims st text).buffer ++ (smartGo delims st text).chunk) =
      segsText st.segments ++ (segText st.buffer ++ (st.chunk ++ text)) :=
  smartGo_content_aux delims text.length text le_rfl st

/-- C2: for every input text unit and every delimiter class, the text
content of segments-then-buffer after `_process_text_smart` is exactly the
previous content followed by the input text: no character is lost or
added, and in particular an unterminated scope at end-of-text is flushed
with the pending chunk into the buffer as ordinary content. -/
theorem smart_split_roundtrip (delims : Char → Bool) (text : List Char)
    (segments : List (List Component)) (buffer : List Component) :
    segsText (processTextSmart delims text segments buffer).1 ++
        segText (processTextSmart delims text segments buffer).2 =
      segsText segments ++ segText buffer ++ text := by
  simp only [processTextSmart]
  have h := smartGo_content delims text { stack := [], chunk := [], buffer := buffer, segments := segments }
  simp only at h
  split
  · rename_i hc
    rw [List.isEmpty_iff] at hc
    rw [hc] at h
    simp only [List.append_nil] at h
    simpa [List.append_assoc] using h
  · rw [segText_append]
    simp only [segText, compText, List.map_cons, List.map_nil, List.flatten_cons,
      List.flatten_nil, List.append_nil]
    simpa [List.append_assoc] using h

/-- C5: an ambiguous straight quote toggles the scope stack by identity
with the stack top — it pops when the top equals the character and pushes
otherwise — and is always consumed as scope content: the chunk is
extended by the character, no segment is emitted, the buffer is left
alone and no further input is consumed.  No other rule is consulted:
this holds for every state and every delimiter class. -/
theorem ambiguous_quote_toggles (delims : Char → Bool) (st : SState) (c : Char)
    (cs : List Char) (h : isAmbiguous c = true) :
    (smartStep delims st c cs).1.stack =
        (if st.stack.head? = some c then st.stack.tail else c :: st.stack) ∧
      (smartStep delims st c cs).1.chunk = st.chunk ++ [c] ∧
      (smartStep delims st c cs).1.segments = st.segments ∧
      (smartStep delims st c cs).1.buffer = st.buffer ∧
      (smartStep delims st c cs).2 = cs := by
  unfold smartStep
  cases hst : st.stack with
  | nil => simp [h, hst]
  | cons top rest =>
    by_cases htc : top = c
    · simp [h, hst, htc]
    · simp [h, hst, htc, Ne.symm htc]

/-- Witness for `ambiguous_quote_toggles` at a concrete state: a straight
double quote on top of a stack holding the same quote pops it. -/
theorem ambiguous_quote_toggles_witness :
    (smartStep (fun c => c == '。') ⟨['\"'], ['a'], [], []⟩ '\"' ['b']).1.stack =
        (if (['\"'] : List Char).head? = some '\"' then (['\"'] : List Char).tail
          else '\"' :: ['\"']) ∧
      (smartStep (fun c => c == '。') ⟨['\"'], ['a'], [], []⟩ '\"' ['b']).1.chunk = ['a'] ++ ['\"'] ∧
      (smartStep (fun c => c == '。') ⟨['\"'], ['a'], [], []⟩ '\"' ['b']).1.segments = [] ∧
      (smartStep (fun c => c == '。') ⟨['\"'], ['a'], [], []⟩ '\"' ['b']).1.buffer = [] ∧
      (smartStep (fun c => c == '。') ⟨['\"'], ['a'], [], []⟩ '\"' ['b']).2 = ['b'] :=
  ambiguous_quote_toggles (fun c => c == '。') ⟨['\"'], ['a'], [], []⟩ '\"' ['b'] (by decide)

/-- C3: when the segment count exceeds a positive maximum `M`, the limiter
keeps the first `M - 1` segments unchanged and appends the in-order
concatenation of all remaining segments as one final segment, so that
exactly `M` segments result; a non-positive maximum leaves the list
unchanged (unlimited). -/
theorem limit_segments_spec (maxSegs : Int) (segments : List (List Component)) :
    (0 < maxSegs → maxSegs < (segments.length : Int) →
      limitSegments maxSegs segments =
          segments.take (maxSegs.toNat - 1) ++
            [(segments.drop (maxSegs.toNat - 1)).flatten] ∧
        ((limitSegments maxSegs segments).length : Int) = maxSegs) ∧
    (maxSegs ≤ 0 → limitSegments maxSegs segments = segments) := by
  constructor
  · intro hpos hlen
    have hcond : (segments.length : Int) > maxSegs ∧ maxSegs > 0 := ⟨hlen, hpos⟩
    constructor
    · simp [limitSegments, hcond]
    · rw [limitSegments, if_pos hcond]
      have hlt : maxSegs.toNat < segments.length := by omega
      simp only [List.length_append, List.length_take, List.length_cons, List.length_nil]
      omega
  · intro hneg
    have : ¬ ((segments.length : Int) > maxSegs ∧ maxSegs > 0) := by omega
    simp [limitSegments, this]

/-- Witness for `limit_segments_spec`: six one-component segments capped
at 4 keep the first 3 and merge the last 3; a cap of `-1` changes nothing. -/
theorem limit_segments_spec_witness :
    (limitSegments 4 [[Component.plain ['1']], [Component.plain ['2']],
          [Component.plain ['3']], [Component.plain ['4']], [Component.plain ['5']],
          [Component.plain ['6']]] =
        [[Component.plain ['1']], [Component.plain ['2']], [Component.plain ['3']],
          [Component.plain ['4']], [Component.plain ['5']], [Component.plain ['6']]].take
            ((4 : Int).toNat - 1) ++
          [([[Component.plain ['1']], [Component.plain ['2']], [Component.plain ['3']],
            [Component.plain ['4']], [Component.plain ['5']],
            [Component.plain ['6']]].drop ((4 : Int).toNat - 1)).flatten] ∧
      ((limitSegments 4 [[Component.plain ['1']], [Component.plain ['2']],
          [Component.plain ['3']], [Component.plain ['4']], [Component.plain ['5']],
          [Component.plain ['6']]]).length : Int) = 4) ∧
    limitSegments (-1) [[Component.plain ['1']], [Component.plain ['2']]] =
      [[Component.plain ['1']], [Component.plain ['2']]] :=
  ⟨(limit_segments_spec 4 _).1 (by decide) (by decide),
    (limit_segments_spec (-1) _).2 (by decide)⟩

/-- C9: every segment returned by `split_chain_smart` is non-empty
(empty segments are filtered just before returning), and the empty
input sequence yields zero segments. -/
theorem split_chain_smart_nonempty (delims : Char → Bool) (smart : Bool)
    (strategies : Strategies) (chain : List Component) :
    (∀ seg ∈ splitChainSmart delims smart strategies chain, seg ≠ []) ∧
      splitChainSmart delims smart strategies ([] : List Component) = [] := by
  refine ⟨?_, rfl⟩
  intro seg hseg
  unfold splitChainSmart at hseg
  simp only [List.mem_filter, Bool.not_eq_true', List.isEmpty_eq_false] at hseg
  exact hseg.2

/-- Witness for `split_chain_smart_nonempty`: the single segment produced
from a one-text chain is non-empty. -/
theorem split_chain_smart_nonempty_witness :
    [Component.plain ['a']] ≠ ([] : List Component) ∧
      splitChainSmart (fun c => c == '。') true
        ⟨Strategy.standalone, Strategy.followPrevText, Strategy.embed,
          Strategy.standalone, Strategy.followNext⟩ ([] : List Component) = [] :=
  ⟨(split_chain_smart_nonempty (fun c => c == '。') true
        ⟨Strategy.standalone, Strategy.followPrevText, Strategy.embed,
          Strategy.standalone, Strategy.followNext⟩
        [Component.plain ['a']]).1 [Component.plain ['a']] (by decide),
    (split_chain_smart_nonempty (fun c => c == '。') true
        ⟨Strategy.standalone, Strategy.followPrevText, Strategy.embed,
          Strategy.standalone, Strategy.followNext⟩ []).2⟩

theorem closer_not_ambiguous {op cl : Char} (hop : pairMap op = some cl)
    (hopa : isAmbiguous op = false) : isAmbiguous cl = false := by
  unfold pairMap at hop
  split_ifs at hop <;> simp_all <;> subst hop <;> revert hopa <;> decide

theorem pairMap_self_of_ambiguous {c : Char} (h : isAmbiguous c = true) :
    pairMap c = some c := by
  simp only [isAmbiguous, Bool.or_eq_true, beq_iff_eq] at h
  rcases h with rfl | rfl <;> decide

theorem smartStep_in_scope (delims : Char → Bool) (st : SState) (c : Char) (cs : List Char)
    (h : st.stack ≠ []) :
    smartStep delims st c cs =
      ({ st with stack := stackStep st.stack c, chunk := st.chunk ++ [c] }, cs) := by
  cases hst : st.stack with
  | nil => exact absurd hst h
  | cons top rest =>
    unfold smartStep stackStep
    rw [hst]
    by_cases ha : isAmbiguous c = true
    · by_cases htc : top = c <;> simp [ha, htc]
    · by_cases h1 : pairMap top = some c
      · simp [ha, h1]
      · by_cases h2 : isOpener c = true <;> simp [ha, h1, h2]

theorem smartGo_scope_run (delims : Char → Bool) :
    ∀ span : List Char, ∀ st : SState, ∀ rest : List Char,
      stackNeverEmpty st.stack span = true →
      smartGo delims st (span ++ rest) =
        smartGo delims
          { st with stack := List.foldl stackStep st.stack span, chunk := st.chunk ++ span }
          rest := by
  intro span
  induction span with
  | nil => intro st rest _; simp
  | cons c cs ih =>
    intro st rest h
    simp only [stackNeverEmpty, Bool.and_eq_true, Bool.not_eq_true'] at h
    have hne : st.stack ≠ [] := by
      intro he
      rw [he] at h
      exact absurd h.1 (by simp)
    rw [List.cons_append, smartGo_cons, smartStep_in_scope delims st c (cs ++ rest) hne]
    rw [ih { st with stack := stackStep st.stack c, chunk := st.chunk ++ [c] } rest
      (by simpa using h.2)]
    simp [List.append_assoc]

theorem smartStep_open (delims : Char → Bool) (st : SState) (c : Char) (cs : List Char)
    (hst : st.stack = []) (hc : isOpener c = true) :
    smartStep delims st c cs = ({ st with stack := [c], chunk := st.chunk ++ [c] }, cs) := by
  unfold smartStep
  rw [hst]
  by_cases ha : isAmbiguous c = true <;> simp [ha, hc]

theorem smartStep_close (delims : Char → Bool) (st : SState) (op cl : Char) (cs : List Char)
    (hst : st.stack = [op]) (hop : pairMap op = some cl) :
    smartStep delims st cl cs = ({ st with stack := [], chunk := st.chunk ++ [cl] }, cs) := by
  by_cases ha : isAmbiguous op = true
  · have hcl : cl = op := by
      have hself := pairMap_self_of_ambiguous ha
      rw [hself, Option.some.injEq] at hop
      exact hop.symm
    subst hcl
    unfold smartStep
    rw [hst]
    simp [ha]
  · have hcla := closer_not_ambiguous hop (by simpa using ha)
    unfold smartStep
    rw [hst]
    simp [hcla, hop]

/-- C1: a whole registered scoped span — any opener of the pairing table
(ambiguous straight quotes included), an interior that keeps the scope
stack non-empty (so it may contain delimiter characters, further quotes
and arbitrarily nested registered pairs, tracked until the deepest scope
closes), and the opener's registered closer closing it — is consumed by
the scope-aware scanner as ordinary content: the whole span goes into the
pending chunk, and the segment list and the buffer are untouched, so no
segment split is performed at any delimiter inside the span; delimiter
matching is suppressed at every position where the scope stack is
non-empty. -/
theorem scope_protects_interior_delimiters (delims : Char → Bool) (op cl : Char)
    (mid tail chunk : List Char) (buf : List Component) (segs : List (List Component))
    (hop : pairMap op = some cl)
    (hmid : stackNeverEmpty [op] mid = true)
    (hend : List.foldl stackStep [op] mid = [op]) :
    smartGo delims ⟨[], chunk, buf, segs⟩ (op :: (mid ++ cl :: tail)) =
        smartGo delims ⟨[], chunk ++ (op :: (mid ++ [cl])), buf, segs⟩ tail ∧
      (smartGo delims ⟨[], chunk, buf, segs⟩ (op :: (mid ++ [cl]))).segments = segs ∧
      (smartGo delims ⟨[], chunk, buf, segs⟩ (op :: (mid ++ [cl]))).buffer = buf := by
  have hope : isOpener op = true := by simp [isOpener, hop]
  have main : ∀ t : List Char,
      smartGo delims ⟨[], chunk, buf, segs⟩ (op :: (mid ++ cl :: t)) =
        smartGo delims ⟨[], chunk ++ (op :: (mid ++ [cl])), buf, segs⟩ t := by
    intro t
    rw [smartGo_cons, smartStep_open delims _ op _ rfl hope]
    rw [smartGo_scope_run delims mid ⟨[op], chunk ++ [op], buf, segs⟩ (cl :: t)
      (by simpa using hmid)]
    simp only [hend]
    rw [smartGo_cons, smartStep_close delims _ op cl t rfl hop]
    have harr : ((chunk ++ [op]) ++ mid) ++ [cl] = chunk ++ (op :: (mid ++ [cl])) := by
      simp
    simp only [harr]
  refine ⟨main tail, ?_, ?_⟩ <;> rw [main [], smartGo_nil]

/-- Witness for `scope_protects_interior_delimiters`, covering both an
ambiguous straight-quote pair and a nested pair: the delimiter `。`
strictly inside `"Hello。World"` and the delimiters inside
`（《。》。）` (one of them inside the nested `《…》` scope) cause no
split — each whole span is consumed into the chunk with the segment
list and buffer untouched. -/
theorem scope_protects_interior_delimiters_witness :
    (smartGo (fun c => c == '。') ⟨[], [], [], []⟩
          ('\x22' :: ("Hello。World".toList ++ '\x22' :: [])) =
        smartGo (fun c => c == '。')
          ⟨[], [] ++ ('\x22' :: ("Hello。World".toList ++ ['\x22'])), [], []⟩ [] ∧
      (smartGo (fun c => c == '。') ⟨[], [], [], []⟩
          ('\x22' :: ("Hello。World".toList ++ ['\x22']))).segments = [] ∧
      (smartGo (fun c => c == '。') ⟨[], [], [], []⟩
          ('\x22' :: ("Hello。World".toList ++ ['\x22']))).buffer = []) ∧
    (smartGo (fun c => c == '。') ⟨[], [], [], []⟩
          ('（' :: (['《', '。', '》', '。'] ++ '）' :: [])) =
        smartGo (fun c => c == '。')
          ⟨[], [] ++ ('（' :: (['《', '。', '》', '。'] ++ ['）'])), [], []⟩ [] ∧
      (smartGo (fun c => c == '。') ⟨[], [], [], []⟩
          ('（' :: (['《', '。', '》', '。'] ++ ['）']))).segments = [] ∧
      (smartGo (fun c => c == '。') ⟨[], [], [], []⟩
          ('（' :: (['《', '。', '》', '。'] ++ ['）']))).buffer = []) :=
  ⟨scope_protects_interior_delimiters (fun c => c == '。') '\x22' '\x22'
      "Hello。World".toList [] [] [] [] (by decide) (by decide) (by decide),
    scope_protects_interior_delimiters (fun c => c == '。') '（' '）'
      ['《', '。', '》', '。'] [] [] [] [] (by decide) (by decide) (by decide)⟩

theorem sendLoopAux_mem (send : Nat → Bool) (n : Nat) :
    ∀ segs : List (List Component), ∀ j i : Nat, ∀ seg : List Component,
      segs[i]? = some seg → deliverable seg = true →
      (if send (j + i) then Ev.sent (j + i) else Ev.failed (j + i)) ∈
        sendLoopAux send n j segs := by
  intro segs
  induction segs with
  | nil => intro j i seg hi; simp at hi
  | cons s rest ih =>
    intro j i seg hi hd
    cases i with
    | zero =>
      simp only [List.getElem?_cons_zero, Option.some.injEq] at hi
      subst hi
      simp only [sendLoopAux, hd, if_true, Nat.add_zero, List.mem_append]
      left
      by_cases hs : send j = true
      · simp [hs]
      · simp [hs]
    | succ i =>
      simp only [List.getElem?_cons_succ] at hi
      have := ih (j + 1) i seg hi hd
      simp only [sendLoopAux, List.mem_append]
      right
      have harith : j + 1 + i = j + (i + 1) := by omega
      rwa [harith] at this

theorem sendLoopAux_slept (send : Nat → Bool) (n : Nat) (i : Nat) :
    ∀ segs : List (List Component), ∀ j : Nat,
      Ev.slept i ∈ sendLoopAux send n j segs → send i = true := by
  intro segs
  induction segs with
  | nil => intro j h; simp [sendLoopAux] at h
  | cons s rest ih =>
    intro j h
    simp only [sendLoopAux, List.mem_append] at h
    rcases h with h | h
    · by_cases hdel : deliverable s = true
      · simp only [hdel, if_true] at h
        by_cases hs : send j = true
        · simp only [hs, if_true, List.mem_cons] at h
          rcases h with h | h
          · exact absurd h (by simp)
          · split at h
            · simp only [List.mem_singleton] at h
              have : i = j := by injection h
              rwa [this]
            · simp at h
        · simp only [hs, if_false, List.mem_singleton] at h
          exact absurd h (by simp)
      · simp only [Bool.not_eq_true] at hdel
        simp [hdel] at h
    · exact ih (j + 1) h

/-- Amendment of C7: a failed send of one segment does not abort the
delivery loop — every later (and earlier) deliverable segment still gets
its send attempt, and the failure is recorded, not propagated — but the
delay of the failed segment is *skipped*: the sleep sits after the send
inside the same `try`, so a delay event can only follow a successful
send. -/
theorem send_failure_continues_without_delay (send : Nat → Bool)
    (segs : List (List Component)) (i : Nat) (seg : List Component)
    (hi : segs[i]? = some seg) (hd : deliverable seg = true) :
    ((if send i then Ev.sent i else Ev.failed i) ∈ sendLoop send segs) ∧
      (Ev.slept i ∈ sendLoop send segs → send i = true) := by
  constructor
  · have := sendLoopAux_mem send segs.length segs 0 i seg hi hd
    simpa [sendLoop] using this
  · intro h
    exact sendLoopAux_slept send segs.length i segs 0 h

/-- Witness for `send_failure_continues_without_delay`: in a two-segment
delivery whose first send fails, the second segment is still processed. -/
theorem send_failure_continues_without_delay_witness :
    ((if (fun i => !(i == 0)) 1 then Ev.sent 1 else Ev.failed 1) ∈
        sendLoop (fun i => !(i == 0)) [[Component.plain ['a']], [Component.plain ['b']]]) ∧
      (Ev.slept 1 ∈
          sendLoop (fun i => !(i == 0)) [[Component.plain ['a']], [Component.plain ['b']]] →
        (fun i => !(i == 0)) 1 = true) :=
  send_failure_continues_without_delay (fun i => !(i == 0))
    [[Component.plain ['a']], [Component.plain ['b']]] 1 [Component.plain ['b']]
    (by decide) (by decide)

/-- Counterexample to C7 as stated: with two deliverable segments and a
send that fails on the first one, the loop does continue (the second
segment is sent) and the failure is only recorded, but no delay is
computed or awaited after the failed first segment — the sleep sits
inside the `try` after the raising send — so "the delay associated with
the failed segment is still applied" is false. -/
theorem send_failure_delay_counterexample :
    Ev.failed 0 ∈
        sendLoop (fun i => !(i == 0)) [[Component.plain ['a']], [Component.plain ['b']]] ∧
      Ev.sent 1 ∈
        sendLoop (fun i => !(i == 0)) [[Component.plain ['a']], [Component.plain ['b']]] ∧
      Ev.slept 0 ∉
        sendLoop (fun i => !(i == 0)) [[Component.plain ['a']], [Component.plain ['b']]] := by
  decide

theorem sendLoopAux_sleep_count (send : Nat → Bool) (n : Nat) :
    ∀ segs : List (List Component), ∀ j : Nat, j + segs.length = n →
      (∀ seg ∈ segs, deliverable seg = true) → (∀ k : Nat, send k = true) →
      (sendLoopAux send n j segs).countP Ev.isSleep = segs.length - 1 := by
  intro segs
  induction segs with
  | nil => intro j _ _ _; simp [sendLoopAux]
  | cons s rest ih =>
    intro j hn hdel hsend
    obtain ⟨hs, hrest⟩ := List.forall_mem_cons.mp hdel
    simp only [List.length_cons] at hn
    simp only [sendLoopAux, hs, if_true, hsend j, List.countP_append]
    rw [ih (j + 1) (by omega) hrest hsend]
    cases rest with
    | nil =>
      have hj : ¬ j < n - 1 := by simp only [List.length_nil] at hn; omega
      simp [hj, List.countP_cons, List.countP_nil, Ev.isSleep]
    | cons r rs =>
      have hj : j < n - 1 := by simp only [List.length_cons] at hn; omega
      simp [hj, List.countP_cons, List.countP_nil, Ev.isSleep]
      omega

/-- C8: in a delivery of `n` segments that all pass the skip checks and
whose sends all succeed, the delay calculator is invoked — and the delay
awaited — exactly `n - 1` times: after every segment except the last. -/
theorem delay_after_each_segment_but_last (send : Nat → Bool)
    (segs : List (List Component))
    (hdel : ∀ seg ∈ segs, deliverable seg = true) (hsend : ∀ k : Nat, send k = true) :
    (sendLoop send segs).countP Ev.isSleep = segs.length - 1 :=
  sendLoopAux_sleep_count send segs.length segs 0 (by simp) hdel hsend

/-- Witness for `delay_after_each_segment_but_last`: a delivery of 3
segments performs exactly 2 delay computations. -/
theorem delay_after_each_segment_but_last_witness :
    (sendLoop (fun _ => true)
        [[Component.plain ['a']], [Component.plain ['b']], [Component.plain ['c']]]).countP
        Ev.isSleep =
      [[Component.plain ['a']], [Component.plain ['b']], [Component.plain ['c']]].length - 1 :=
  delay_after_each_segment_but_last (fun _ => true)
    [[Component.plain ['a']], [Component.plain ['b']], [Component.plain ['c']]]
    (by decide) (fun _ => rfl)

/-- C10: when splitting and limiting yield at most one segment and no
cleanup pattern is configured, the handler returns early: no segment is
sent and the original result chain is returned completely unchanged (not
cleared).  In every other case — at least two segments, or a cleanup
pattern set — the handler runs its delivery loop and clears the chain. -/
theorem single_segment_leaves_chain_untouched (cfg : Config) (send : Nat → Bool)
    (chain : List Component) :
    ((limitSegments cfg.maxSegs
            (splitChainSmart cfg.delims cfg.smart cfg.strategies chain)).length ≤ 1 →
        cfg.clean.isNone = true →
        onDecoratingResult cfg send chain = ([], chain)) ∧
      (¬ ((limitSegments cfg.maxSegs
              (splitChainSmart cfg.delims cfg.smart cfg.strategies chain)).length ≤ 1 ∧
            cfg.clean.isNone = true) →
        (onDecoratingResult cfg send chain).2 = []) := by
  constructor
  · intro h1 h2
    simp only [onDecoratingResult]
    rw [if_pos ⟨h1, h2⟩]
  · intro h
    simp only [onDecoratingResult]
    rw [if_neg h]

/-- Witness for `single_segment_leaves_chain_untouched`: a one-text chain
that splits into a single segment is passed through untouched, while a
chain splitting into two segments gets its original chain cleared. -/
theorem single_segment_leaves_chain_untouched_witness :
    (onDecoratingResult
        ⟨fun c => c == '。', true,
          ⟨Strategy.standalone, Strategy.followPrevText, Strategy.embed,
            Strategy.standalone, Strategy.followNext⟩, 7, none⟩
        (fun _ => true) [Component.plain ['a']] =
      ([], [Component.plain ['a']])) ∧
    (onDecoratingResult
        ⟨fun c => c == '。', true,
          ⟨Strategy.standalone, Strategy.followPrevText, Strategy.embed,
            Strategy.standalone, Strategy.followNext⟩, 7, none⟩
        (fun _ => true) [Component.plain ['a', '。', 'b']]).2 = [] :=
  ⟨(single_segment_leaves_chain_untouched
      ⟨fun c => c == '。', true,
        ⟨Strategy.standalone, Strategy.followPrevText, Strategy.embed,
          Strategy.standalone, Strategy.followNext⟩, 7, none⟩
      (fun _ => true) [Component.plain ['a']]).1 (by decide) rfl,
    (single_segment_leaves_chain_untouched
      ⟨fun c => c == '。', true,
        ⟨Strategy.standalone, Strategy.followPrevText, Strategy.embed,
          Strategy.standalone, Strategy.followNext⟩, 7, none⟩
      (fun _ => true) [Component.plain ['a', '。', 'b']]).2 (by decide)⟩

theorem mem_takeWhile_sat (p : Char → Bool) :
    ∀ l : List Char, ∀ a ∈ l.takeWhile p, p a = true := by
  intro l
  induction l with
  | nil => simp
  | cons c cs ih =>
    by_cases h : p c = true
    · simp only [List.takeWhile_cons_of_pos h, List.mem_cons]
      rintro a (rfl | ha)
      · exact h
      · exact ih a ha
    · simp [List.takeWhile_cons_of_neg h]

theorem mem_dropWhile_mem (p : Char → Bool) :
    ∀ l : List Char, ∀ a ∈ l.dropWhile p, a ∈ l := by
  intro l
  induction l with
  | nil => simp
  | cons c cs ih =>
    by_cases h : p c = true
    · intro a ha
      rw [List.dropWhile_cons_of_pos h] at ha
      exact List.mem_cons_of_mem c (ih a ha)
    · intro a ha
      rwa [List.dropWhile_cons_of_neg h] at ha

theorem head_dropWhile_false (p : Char → Bool) :
    ∀ l : List Char, ∀ x : Char, (l.dropWhile p).head? = some x → p x = false := by
  intro l
  induction l with
  | nil => simp
  | cons c cs ih =>
    intro x hx
    by_cases h : p c = true
    · rw [List.dropWhile_cons_of_pos h] at hx
      exact ih x hx
    · rw [List.dropWhile_cons_of_neg h] at hx
      simp only [List.head?_cons, Option.some.injEq] at hx
      subst hx
      simpa using h

theorem not_ambiguous_of_pairMap_none {c : Char} (h : pairMap c = none) :
    isAmbiguous c = false := by
  by_contra hc
  simp only [Bool.not_eq_false, isAmbiguous, Bool.or_eq_true, beq_iff_eq] at hc
  rcases hc with rfl | rfl <;> exact absurd h (by decide)

theorem smartStep_plain (delims : Char → Bool) (st : SState) (x : Char) (cs : List Char)
    (hxa : isAmbiguous x = false) (hst : st.stack = [])
    (hxo : isOpener x = false) (hxd : delims x = false) :
    smartStep delims st x cs = ({ st with chunk := st.chunk ++ [x] }, cs) := by
  simp [smartStep, hst, hxa, hxo, hxd]

theorem smartStep_delim (delims : Char → Bool) (st : SState) (c : Char) (cs : List Char)
    (hca : isAmbiguous c = false) (hst : st.stack = [])
    (hco : isOpener c = false) (hcd : delims c = true) :
    smartStep delims st c cs =
      (⟨[], [], [],
          st.segments ++ [st.buffer ++ [Component.plain (st.chunk ++ c :: cs.takeWhile delims)]]⟩,
        cs.dropWhile delims) := by
  simp [smartStep, hst, hca, hco, hcd]

theorem smartGo_consume_plain_run (delims : Char → Bool) :
    ∀ r : List Char, (∀ x ∈ r, pairMap x = none ∧ delims x = false) →
      ∀ cs' chunk : List Char, ∀ buf : List Component, ∀ segs : List (List Component),
        smartGo delims ⟨[], chunk, buf, segs⟩ (r ++ cs') =
          smartGo delims ⟨[], chunk ++ r, buf, segs⟩ cs' := by
  intro r
  induction r with
  | nil => intro _ cs' chunk buf segs; simp
  | cons x xs ih =>
    intro h cs' chunk buf segs
    obtain ⟨hx, hxs⟩ := List.forall_mem_cons.mp h
    rw [List.cons_append, smartGo_cons]
    rw [smartStep_plain delims _ x _ (not_ambiguous_of_pairMap_none hx.1) rfl
      (by simp [isOpener, hx.1]) hx.2]
    rw [ih hxs cs' (chunk ++ [x]) buf segs]
    simp [List.append_assoc]

theorem smart_eq_simple_aux (delims : Char → Bool) :
    ∀ fuel : Nat, ∀ text : List Char, text.length ≤ fuel →
      (∀ c ∈ text, pairMap c = none) →
      ∀ chunk : List Char, ∀ segs : List (List Component), ∀ buf : List Component,
        (chunk = [] ∨ headDelim delims text) →
        finishSmart (smartGo delims ⟨[], chunk, buf, segs⟩ text) =
          simpleGo delims (toRuns delims text) chunk segs buf := by
  intro fuel
  induction fuel with
  | zero =>
    intro text hlen _ chunk segs buf _
    have : text = [] := List.eq_nil_of_length_eq_zero (Nat.le_zero.mp hlen)
    subst this
    rfl
  | succ f ih =>
    intro text hlen hscope chunk segs buf hinv
    cases text with
    | nil => rfl
    | cons c cs =>
      obtain ⟨hc, hcs⟩ := List.forall_mem_cons.mp hscope
      have hca : isAmbiguous c = false := not_ambiguous_of_pairMap_none hc
      have hco : isOpener c = false := by simp [isOpener, hc]
      rw [toRuns_cons]
      by_cases hd : delims c = true
      · have hpred : (fun x => delims x == delims c) = delims := by
          funext x
          rw [hd, beq_true]
        rw [hpred]
        rw [smartGo_cons, smartStep_delim delims _ c cs hca rfl hco hd]
        have hrest_len : (cs.dropWhile delims).length ≤ f :=
          le_trans (dropWhile_length_le delims cs) (by simpa using hlen)
        have hrest_scope : ∀ x ∈ cs.dropWhile delims, pairMap x = none :=
          fun x hx => hcs x (mem_dropWhile_mem delims cs x hx)
        rw [ih (cs.dropWhile delims) hrest_len hrest_scope [] _ [] (Or.inl rfl)]
        have hall : (c :: cs.takeWhile delims).all delims = true := by
          simp only [List.all_cons, Bool.and_eq_true]
          exact ⟨hd, List.all_eq_true.mpr (mem_takeWhile_sat delims cs)⟩
        simp [simpleGo, hall]
      · have hchunk : chunk = [] := by
          rcases hinv with h | h
          · exact h
          · exact absurd h hd
        subst hchunk
        have hdb : delims c = false := by simpa using hd
        have hpred : (fun x => delims x == delims c) = (fun x => !(delims x)) := by
          funext x
          rw [hdb, beq_false]
        rw [hpred]
        have hsplit : c :: cs =
            (c :: cs.takeWhile (fun x => !(delims x))) ++ cs.dropWhile (fun x => !(delims x)) := by
          simp [List.takeWhile_append_dropWhile]
        have hrun : ∀ x ∈ c :: cs.takeWhile (fun x => !(delims x)),
            pairMap x = none ∧ delims x = false := by
          intro x hx
          rcases List.mem_cons.mp hx with rfl | hx2
          · exact ⟨hc, hdb⟩
          · refine ⟨hcs x (List.takeWhile_subset _ hx2), ?_⟩
            have := mem_takeWhile_sat (fun x => !(delims x)) cs x hx2
            simpa using this
        rw [hsplit, smartGo_consume_plain_run delims _ hrun _ [] buf segs]
        have hrest_len : (cs.dropWhile (fun x => !(delims x))).length ≤ f :=
          le_trans (dropWhile_length_le _ cs) (by simpa using hlen)
        have hrest_scope : ∀ x ∈ cs.dropWhile (fun x => !(delims x)), pairMap x = none :=
          fun x hx => hcs x (mem_dropWhile_mem _ cs x hx)
        have hrest_head : headDelim delims (cs.dropWhile (fun x => !(delims x))) := by
          cases hrest : cs.dropWhile (fun x => !(delims x)) with
          | nil => trivial
          | cons r rs =>
            have := head_dropWhile_false (fun x => !(delims x)) cs r (by rw [hrest]; rfl)
            simpa [headDelim] using this
        rw [List.nil_append,
          ih (cs.dropWhile (fun x => !(delims x))) hrest_len hrest_scope
            (c :: cs.takeWhile (fun x => !(delims x))) segs buf (Or.inr hrest_head)]
        have hall : (c :: cs.takeWhile (fun x => !(delims x))).all delims = false := by
          simp [List.all_cons, hdb]
        simp [simpleGo, hall]

/-- C4: on text containing no characters of the pairing table (hence no
scope markers and no ambiguous quotes), the legacy splitter
`_process_text_simple` and the scope-aware splitter `_process_text_smart`
return exactly the same segment list and the same final buffer, for every
delimiter class and every starting segment list and buffer. -/
theorem simple_smart_equivalent (delims : Char → Bool) (text : List Char)
    (segments : List (List Component)) (buffer : List Component)
    (h : ∀ c ∈ text, pairMap c = none) :
    processTextSimple delims text segments buffer =
      processTextSmart delims text segments buffer := by
  have heq := smart_eq_simple_aux delims text.length text le_rfl h [] segments buffer (Or.inl rfl)
  exact heq.symm

/-- Witness for `simple_smart_equivalent` on a concrete scope-free text. -/
theorem simple_smart_equivalent_witness :
    processTextSimple (fun c => c == '。') ['a', '。', 'b', '。', 'c'] [] [] =
      processTextSmart (fun c => c == '。') ['a', '。', 'b', '。', 'c'] [] [] :=
  simple_smart_equivalent (fun c => c == '。') ['a', '。', 'b', '。', 'c'] [] [] (by decide)

theorem smartStep_out_cases (delims : Char → Bool) (st : SState) (c : Char) (cs : List Char) :
    ((smartStep delims st c cs).1.segments = st.segments ∧
        (smartStep delims st c cs).1.buffer = st.buffer) ∨
      (∃ t, (smartStep delims st c cs).1.segments =
          st.segments ++ [st.buffer ++ [Component.plain t]] ∧
        (smartStep delims st c cs).1.buffer = []) := by
  unfold smartStep
  repeat' split
  all_goals first
    | exact Or.inl ⟨rfl, rfl⟩
    | exact Or.inr ⟨_, rfl, rfl⟩

theorem smartGo_extend (delims : Char → Bool) :
    ∀ fuel : Nat, ∀ text : List Char, text.length ≤ fuel → ∀ st : SState,
      ∃ extra : List (List Component),
        (smartGo delims st text).segments = st.segments ++ extra ∧
        ((extra = [] ∧ (smartGo delims st text).buffer = st.buffer) ∨
          ∃ t m, extra = (st.buffer ++ [Component.plain t]) :: m) := by
  intro fuel
  induction fuel with
  | zero =>
    intro text hlen st
    have : text = [] := List.eq_nil_of_length_eq_zero (Nat.le_zero.mp hlen)
    subst this
    exact ⟨[], by simp [smartGo_nil], Or.inl ⟨rfl, rfl⟩⟩
  | succ f ih =>
    intro text hlen st
    cases text with
    | nil => exact ⟨[], by simp [smartGo_nil], Or.inl ⟨rfl, rfl⟩⟩
    | cons c cs =>
      simp only [smartGo_cons]
      obtain ⟨extra, hseg, hdisj⟩ := ih (smartStep delims st c cs).2
        (le_trans (smartStep_snd_le delims st c cs) (by simpa using hlen))
        (smartStep delims st c cs).1
      rcases smartStep_out_cases delims st c cs with ⟨hs1, hb1⟩ | ⟨t, hs2, hb2⟩
      · refine ⟨extra, by rw [hseg, hs1], ?_⟩
        rcases hdisj with ⟨he, hb⟩ | ⟨t, m, hex⟩
        · exact Or.inl ⟨he, by rw [hb, hb1]⟩
        · exact Or.inr ⟨t, m, by rw [hex, hb1]⟩
      · refine ⟨(st.buffer ++ [Component.plain t]) :: extra, ?_, Or.inr ⟨t, extra, rfl⟩⟩
        rw [hseg, hs2]
        simp

theorem processTextSmart_extend (delims : Char → Bool) (text : List Char)
    (segs : List (List Component)) (buf : List Component) :
    ∃ extra buf2, processTextSmart delims text segs buf = (segs ++ extra, buf2) ∧
      ((extra = [] ∧ ∃ m, buf2 = buf ++ m) ∨ (∃ m, extra.head? = some (buf ++ m))) := by
  obtain ⟨extra, hseg, hdisj⟩ :=
    smartGo_extend delims text.length text le_rfl ⟨[], [], buf, segs⟩
  simp only [processTextSmart]
  by_cases hc : (smartGo delims ⟨[], [], buf, segs⟩ text).chunk.isEmpty
  · rw [if_pos hc]
    refine ⟨extra, _, by rw [hseg], ?_⟩
    rcases hdisj with ⟨he, hb⟩ | ⟨t, m, hex⟩
    · exact Or.inl ⟨he, [], by rw [hb]; simp⟩
    · exact Or.inr ⟨[Component.plain t], by rw [hex]; rfl⟩
  · rw [if_neg hc]
    refine ⟨extra, _, by rw [hseg], ?_⟩
    rcases hdisj with ⟨he, hb⟩ | ⟨t, m, hex⟩
    · exact Or.inl ⟨he, [Component.plain _], by rw [hb]⟩
    · exact Or.inr ⟨[Component.plain t], by rw [hex]; rfl⟩

theorem simpleGo_extend (delims : Char → Bool) :
    ∀ parts : List (List Char), ∀ temp : List Char, ∀ segs : List (List Component),
      ∀ buf : List Component,
      ∃ extra buf2, simpleGo delims parts temp segs buf = (segs ++ extra, buf2) ∧
        ((extra = [] ∧ ∃ m, buf2 = buf ++ m) ∨ (∃ m, extra.head? = some (buf ++ m))) := by
  intro parts
  induction parts with
  | nil =>
    intro temp segs buf
    by_cases ht : temp.isEmpty
    · exact ⟨[], buf, by simp [simpleGo, ht], Or.inl ⟨rfl, [], by simp⟩⟩
    · exact ⟨[], buf ++ [Component.plain temp], by simp [simpleGo, ht],
        Or.inl ⟨rfl, [Component.plain temp], rfl⟩⟩
  | cons part rest ih =>
    intro temp segs buf
    by_cases hp : part.isEmpty
    · simpa only [simpleGo, hp, if_true] using ih temp segs buf
    · by_cases hall : part.all delims
      · obtain ⟨extra, buf2, hout, _⟩ :=
          ih [] (segs ++ [buf ++ [Component.plain (temp ++ part)]]) []
        refine ⟨(buf ++ [Component.plain (temp ++ part)]) :: extra, buf2, ?_,
          Or.inr ⟨[Component.plain (temp ++ part)], rfl⟩⟩
        simp only [simpleGo, hp, hall, if_false, if_true, Bool.false_eq_true]
        rw [hout]
        simp
      · by_cases ht : temp.isEmpty
        · simpa only [simpleGo, hp, hall, ht, if_false, if_true, Bool.false_eq_true]
            using ih part segs buf
        · obtain ⟨extra, buf2, hout, hdisj⟩ := ih part segs (buf ++ [Component.plain temp])
          refine ⟨extra, buf2, ?_, ?_⟩
          · simp only [simpleGo, hp, hall, ht, if_false, Bool.false_eq_true]
            exact hout
          · rcases hdisj with ⟨he, m, hb⟩ | ⟨m, hh⟩
            · exact Or.inl ⟨he, [Component.plain temp] ++ m, by rw [hb]; simp⟩
            · refine Or.inr ⟨[Component.plain temp] ++ m, ?_⟩
              rw [List.append_assoc] at hh
              exact hh

theorem processTextSimple_extend (delims : Char → Bool) (text : List Char)
    (segs : List (List Component)) (buf : List Component) :
    ∃ extra buf2, processTextSimple delims text segs buf = (segs ++ extra, buf2) ∧
      ((extra = [] ∧ ∃ m, buf2 = buf ++ m) ∨ (∃ m, extra.head? = some (buf ++ m))) :=
  simpleGo_extend delims (toRuns delims text) [] segs buf

theorem goodAcc_of_extend (u : Component) (segs : List (List Component))
    (buf buf2 : List Component) (extra : List (List Component))
    (hg : goodAcc u (segs, buf))
    (hdisj : (extra = [] ∧ ∃ m, buf2 = buf ++ m) ∨ (∃ m, extra.head? = some (buf ++ m))) :
    goodAcc u (segs ++ extra, buf2) := by
  simp only [goodAcc] at hg ⊢
  rcases hg with ⟨h1, m0, h2⟩ | ⟨m, rest, h⟩
  · subst h1
    rcases hdisj with ⟨he, m, hb⟩ | ⟨m, hh⟩
    · subst he
      exact Or.inl ⟨rfl, m0 ++ m, by rw [hb, h2]; simp⟩
    · right
      cases extra with
      | nil => simp at hh
      | cons e es =>
        simp only [List.head?_cons, Option.some.injEq] at hh
        subst hh
        rw [h2]
        exact ⟨m0 ++ m, es, by simp⟩
  · right
    rw [h]
    exact ⟨m, rest ++ extra, by simp⟩

theorem appendToLast_head (comp : Component) (s0 : List Component) :
    ∀ rest : List (List Component), ∃ e rest2,
      appendToLast (s0 :: rest) comp = (s0 ++ e) :: rest2 := by
  intro rest
  cases rest with
  | nil => exact ⟨[comp], [], rfl⟩
  | cons s2 rest => exact ⟨[], appendToLast (s2 :: rest) comp, by simp [appendToLast]⟩

theorem chainStep_good (delims : Char → Bool) (smart : Bool) (strategies : Strategies)
    (u : Component) (acc : List (List Component) × List Component) (comp : Component)
    (hg : goodAcc u acc) : goodAcc u (chainStep delims smart strategies acc comp) := by
  obtain ⟨segs, buf⟩ := acc
  simp only [goodAcc] at hg ⊢
  cases comp with
  | plain t =>
    by_cases ht : t.isEmpty
    · simpa only [chainStep, ht, if_true] using hg
    · by_cases hs : smart = true
      · obtain ⟨extra, buf2, hout, hdisj⟩ := processTextSmart_extend delims t segs buf
        simp only [chainStep, ht, hs, if_false, if_true, Bool.false_eq_true]
        rw [hout]
        exact goodAcc_of_extend u segs buf buf2 extra hg hdisj
      · obtain ⟨extra, buf2, hout, hdisj⟩ := processTextSimple_extend delims t segs buf
        simp only [chainStep, ht, hs, if_false, Bool.false_eq_true]
        rw [hout]
        exact goodAcc_of_extend u segs buf buf2 extra hg hdisj
  | media ctype =>
    cases hst : resolveStrategy strategies ctype with
    | standalone =>
      simp only [chainStep, hst]
      rcases hg with ⟨h1, m0, h2⟩ | ⟨m, rest, h⟩
      · subst h1
        rw [h2]
        exact Or.inr ⟨m0, [[Component.media ctype]], by simp⟩
      · rw [h]
        by_cases hb : buf.isEmpty
        · simp only [hb, if_true]
          exact Or.inr ⟨m, rest ++ [[Component.media ctype]], by simp⟩
        · simp only [hb, if_false, Bool.false_eq_true]
          exact Or.inr ⟨m, (rest ++ [buf]) ++ [[Component.media ctype]], by simp⟩
    | followPrevText =>
      simp only [chainStep, hst]
      rcases hg with ⟨h1, m0, h2⟩ | ⟨m, rest, h⟩
      · have hb : buf.isEmpty = false := by rw [h2]; rfl
        subst h1
        simp only [hb, Bool.not_false, if_true]
        exact Or.inl ⟨by trivial, m0 ++ [Component.media ctype], by rw [h2]; simp⟩
      · by_cases hb : buf.isEmpty
        · have hsegs : segs.isEmpty = false := by rw [h]; rfl
          simp only [hb, Bool.not_true, hsegs, Bool.not_false, if_false, if_true,
            Bool.false_eq_true]
          rw [h]
          obtain ⟨e, rest2, happ⟩ := appendToLast_head (Component.media ctype) (u :: m) rest
          rw [happ]
          exact Or.inr ⟨m ++ e, rest2, by simp⟩
        · simp only [hb, Bool.not_false, if_true, Bool.false_eq_true]
          exact Or.inr ⟨m, rest, h⟩
    | followNext =>
      simp only [chainStep, hst]
      rcases hg with ⟨h1, m0, h2⟩ | ⟨m, rest, h⟩
      · exact Or.inl ⟨h1, m0 ++ [Component.media ctype], by rw [h2]; simp⟩
      · exact Or.inr ⟨m, rest, h⟩
    | embed =>
      simp only [chainStep, hst]
      rcases hg with ⟨h1, m0, h2⟩ | ⟨m, rest, h⟩
      · exact Or.inl ⟨h1, m0 ++ [Component.media ctype], by rw [h2]; simp⟩
      · exact Or.inr ⟨m, rest, h⟩

theorem foldl_chainStep_good (delims : Char → Bool) (smart : Bool)
    (strategies : Strategies) (u : Component) :
    ∀ chain : List Component, ∀ acc : List (List Component) × List Component,
      goodAcc u acc →
      goodAcc u (chain.foldl (chainStep delims smart strategies) acc) := by
  intro chain
  induction chain with
  | nil => intro acc h; exact h
  | cons comp rest ih =>
    intro acc h
    rw [List.foldl_cons]
    exact ih _ (chainStep_good delims smart strategies u acc comp h)

theorem splitChainSmart_head_of_good (delims : Char → Bool) (smart : Bool)
    (strategies : Strategies) (u : Component) (chain : List Component)
    (hg : goodAcc u (chain.foldl (chainStep delims smart strategies) ([], []))) :
    ∃ m segs2, splitChainSmart delims smart strategies chain = (u :: m) :: segs2 := by
  simp only [goodAcc] at hg
  simp only [splitChainSmart]
  rcases hg with ⟨h1, m0, h2⟩ | ⟨m, rest, h⟩
  · rw [h1, h2]
    exact ⟨m0, [], by simp⟩
  · rw [h]
    by_cases hb : (chain.foldl (chainStep delims smart strategies) ([], [])).2.isEmpty
    · simp only [hb, if_true]
      exact ⟨m, List.filter (fun s => !s.isEmpty) rest, by simp⟩
    · simp only [hb, if_false, Bool.false_eq_true]
      refine ⟨m, List.filter (fun s => !s.isEmpty)
        (rest ++ [(chain.foldl (chainStep delims smart strategies) ([], [])).2]), ?_⟩
      simp

/-- C6: standalone media always get a segment of their own at processing
time — the pending buffer, when non-empty, is flushed as a segment first
and the media component is then emitted as a singleton segment with the
buffer cleared; and a media component resolved to attach-to-previous that
opens the content sequence (no prior segment, empty buffer) becomes the
leading content of the first segment the whole split returns, whatever
follows it. -/
theorem media_attachment_strategies (delims : Char → Bool) (smart : Bool)
    (strategies : Strategies) :
    (∀ acc : List (List Component) × List Component, ∀ ctype : List Char,
        resolveStrategy strategies ctype = Strategy.standalone →
        chainStep delims smart strategies acc (Component.media ctype) =
          ((if acc.2.isEmpty then acc.1 else acc.1 ++ [acc.2]) ++
            [[Component.media ctype]], [])) ∧
      (∀ ctype : List Char, ∀ rest : List Component,
        resolveStrategy strategies ctype = Strategy.followPrevText →
        ∃ m segs2,
          splitChainSmart delims smart strategies (Component.media ctype :: rest) =
            (Component.media ctype :: m) :: segs2) := by
  constructor
  · intro acc ctype hst
    simp [chainStep, hst]
  · intro ctype rest hst
    apply splitChainSmart_head_of_good
    rw [List.foldl_cons]
    apply foldl_chainStep_good
    simp only [goodAcc, chainStep, hst]
    exact Or.inl ⟨rfl, [], rfl⟩

/-- Witness for `media_attachment_strategies`: a standalone image after
buffered text flushes the buffer and stands alone; an attach-to-previous
mention at the very start of the chain leads the first returned segment. -/
theorem media_attachment_strategies_witness :
    (chainStep (fun c => c == '。') true
        ⟨Strategy.standalone, Strategy.followPrevText, Strategy.embed,
          Strategy.standalone, Strategy.followNext⟩
        ([[Component.plain ['x']]], [Component.plain ['y']])
        (Component.media "image".toList) =
      ((if ([Component.plain ['y']] : List Component).isEmpty then [[Component.plain ['x']]]
          else [[Component.plain ['x']]] ++ [[Component.plain ['y']]]) ++
        [[Component.media "image".toList]], [])) ∧
      (∃ m segs2,
        splitChainSmart (fun c => c == '。') true
            ⟨Strategy.standalone, Strategy.followPrevText, Strategy.embed,
              Strategy.standalone, Strategy.followNext⟩
            (Component.media "at".toList :: [Component.plain ['h', 'i']]) =
          (Component.media "at".toList :: m) :: segs2) :=
  ⟨(media_attachment_strategies (fun c => c == '。') true
      ⟨Strategy.standalone, Strategy.followPrevText, Strategy.embed,
        Strategy.standalone, Strategy.followNext⟩).1
      ([[Component.plain ['x']]], [Component.plain ['y']]) "image".toList (by decide),
    (media_attachment_strategies (fun c => c == '。') true
      ⟨Strategy.standalone, Strategy.followPrevText, Strategy.embed,
        Strategy.standalone, Strategy.followNext⟩).2
      "at".toList [Component.plain ['h', 'i']] (by decide)⟩

end Splitter
